import Mathlib

/-!
Verification of the state-tree collection and persistence layer of
`ts-fp-di-mikroorm` (src/index.ts) against its specification.

The embedding models:
- JS field values (`FVal`, with `none : Option FVal` standing for JS
  `undefined` and `FVal.fnull` for JS `null`), and JS truthiness;
- entity objects (`EntData`): heap-allocated objects carrying their fields
  and whether their constructor is in the registered entity-type set;
- state values (`Val`): scalars, Error instances, entity references,
  plain objects, arrays, Map/Set containers, and `Some`/`Right`/`Left`
  wrappers, exactly the shapes dispatched on by `entitiesSet`;
- the collector `entitiesSet`/`arrayToSet` (src/index.ts lines 59-89),
  with JS `Set` insertion-order semantics modelled by `addEnt` on lists
  and a thrown error modelled by `Except.error`;
- the storage session (an external collaborator, `@mikro-orm/core`'s
  `EntityManager`): modelled from the spec's collaborator contract
  (spec sections 4.4 and 6) as a database of rows plus an identity map
  that caches records loaded by primary key — possibly pre-populated by
  the records caller logic loaded through `em()` while it ran — and an
  event trace recording
  every `findOne`, storage read, `getReference`, `remove`, `persist`,
  `flush` and post-persist hook call;
- `fetchExistingEntity`, `getRef`, `persistEntity` (src/index.ts
  lines 91-113, 129-139) and the lifecycle wrapper `wrapTsFpDiMikroorm`
  (src/index.ts lines 21-48), with the caller logic `cb` and the
  registered `onPersist` hook given as abstract outcomes and the two
  `Promise.all` phases sequentialised in order.
-/

namespace TFDM

/-- A JS field value: `null`, a number, a string, or a boolean.
JS `undefined` is represented by `none : Option FVal` one level up. -/
inductive FVal where
  | fnull : FVal
  | num : Nat → FVal
  | str : String → FVal
  | fbool : Bool → FVal
deriving DecidableEq, Repr

/-- Own enumerable fields of a JS object, in insertion order.
A `(k, none)` entry is a key present with value `undefined`;
a key not in the list is absent. -/
abbrev Fields := List (String × Option FVal)

/-- JS truthiness of a possibly-undefined field value
(`undefined`, `null`, `0`, `""`, `false` are falsy). -/
def truthy : Option FVal → Bool
  | none => false
  | some FVal.fnull => false
  | some (FVal.num n) => n != 0
  | some (FVal.str s) => s != ""
  | some (FVal.fbool b) => b

/-- An object that may be an entity: whether its constructor belongs to the
registered entity-type set (`orm.config.get('entities')`), and its fields.
The directive flags `$forDelete`/`$forUpdate`/`$forUpsert`/`$noPersist` are
ordinary fields, as in the source (`Entity` type, src/index.ts lines 5-11). -/
structure EntData where
  registered : Bool := false
  fields : Fields := []
deriving DecidableEq, Repr, Inhabited

/-- Object heap: entity objects addressed by identity (list index). -/
abbrev Heap := List EntData

/-- Dereference an object id; out-of-range ids yield the default
(unregistered, field-less) object. -/
def getEnt (h : Heap) (i : Nat) : EntData := h.getD i default

/-- First value of field `k` (JS property read, `undefined` if absent). -/
def fieldVal (fs : Fields) (k : String) : Option FVal :=
  match fs.find? (fun p => p.1 == k) with
  | some p => p.2
  | none => none

/-- Two-level field lookup: `none` = key absent, `some none` = key present
with value `undefined`, `some (some v)` = defined value `v`. -/
def getField (fs : Fields) (k : String) : Option (Option FVal) :=
  match fs.find? (fun p => p.1 == k) with
  | some p => some p.2
  | none => none

/-- Truthiness check of `entity.$noPersist` (src/index.ts line 78). -/
def noPersistF (e : EntData) : Bool := truthy (fieldVal e.fields "$noPersist")

/-- Truthiness check of `entity.$forDelete` (src/index.ts line 100). -/
def forDeleteF (e : EntData) : Bool := truthy (fieldVal e.fields "$forDelete")

/-- Truthiness check of `entity.$forUpdate` (src/index.ts line 104). -/
def forUpdateF (e : EntData) : Bool := truthy (fieldVal e.fields "$forUpdate")

/-- Truthiness check of `entity.$forUpsert` (src/index.ts lines 36, 104). -/
def forUpsertF (e : EntData) : Bool := truthy (fieldVal e.fields "$forUpsert")

/-- A runtime value reachable from a state slot.  `vnull` stands for both
JS `null` and `undefined`; `scalar` for any other primitive; `errObj e`
for an `Error` instance identified by `e`; `ent i` for the entity object
at heap address `i`; `obj` for a plain non-entity object (fields hold
further values); `arr`, `vmap`, `vset` for Array/Map/Set (element or value
lists in iteration order); `vsome`/`vright`/`vleft` for fp-ts style
`{_tag: 'Some', value}` / `{_tag: 'Right', right}` / `{_tag: 'Left', left}`
wrappers carrying the wrapped value. -/
inductive Val where
  | vnull : Val
  | scalar : Nat → Val
  | errObj : Nat → Val
  | ent : Nat → Val
  | obj : List Val → Val
  | arr : List Val → Val
  | vmap : List Val → Val
  | vset : List Val → Val
  | vsome : Val → Val
  | vright : Val → Val
  | vleft : Val → Val
deriving Repr

/-- The classifier `isEntity` (src/index.ts lines 124-127): the value's constructor is in
the registered entity-type set.  Only entity objects can satisfy this: the
constructors of plain objects, arrays, maps, sets, wrappers and `Error`s
(`Object`, `Array`, `Map`, `Set`, `Error`) are never registered, and for
null/undefined the source substitutes `{}`, whose constructor `Object` is
likewise not registered. -/
def isEntity (h : Heap) : Val → Bool
  | Val.ent i => (getEnt h i).registered
  | _ => false

/-- The predicate `isSome` (src/index.ts lines 115-116): tag is `Some` and the wrapped
value is non-null. -/
def isSome : Val → Bool
  | Val.vsome Val.vnull => false
  | Val.vsome _ => true
  | _ => false

/-- The predicate `isRight` (src/index.ts lines 118-119): tag is `Right` and the wrapped
value is non-null. -/
def isRight : Val → Bool
  | Val.vright Val.vnull => false
  | Val.vright _ => true
  | _ => false

/-- The predicate `isLeft` (src/index.ts lines 121-122): tag is `Left` and the wrapped
value is non-null. -/
def isLeft : Val → Bool
  | Val.vleft Val.vnull => false
  | Val.vleft _ => true
  | _ => false

/-- Whether a value is JS `null`/`undefined` (the `!= null` checks of
`isSome`/`isRight`/`isLeft` test its negation). -/
def isNullV : Val → Bool
  | Val.vnull => true
  | _ => false

/-- The `maybeEntity.left instanceof Error` test on a `Left`'s payload
(src/index.ts line 60): the thrown error when the payload is an `Error`
instance.  Any `Error` instance is non-null, so `isLeft` holds whenever
this returns a value. -/
def leftErrOf : Val → Option Nat
  | Val.errObj e => some e
  | _ => none

/-- JS `Set.add` on an insertion-ordered list: adding an element already
present is a no-op, otherwise it is appended. -/
def addEnt (l : List Nat) (i : Nat) : List Nat :=
  if i ∈ l then l else l ++ [i]

/-- The union step of `arrayToSet` (src/index.ts lines 86-88): start from a
copy of the accumulator set and add every member of every per-element set,
in order. -/
def unionInto (acc : List Nat) (sets : List (List Nat)) : List Nat :=
  sets.foldl (fun resp s => s.foldl addEnt resp) acc

mutual
/-- The collector `entitiesSet` (src/index.ts lines 59-82).  Dispatch order of the
source's if-chain is preserved: a `Left` carrying an `Error` instance
throws it first; arrays and Map/Set values go through `arrayToSet`
(inlined here as `collectSets` + `unionInto`); a non-null-carrying
`Some`/`Right` is unwrapped and recursed on; then the `isEntity` and
`$noPersist` checks; everything else contributes nothing.  A `Left`
carrying anything other than an `Error` instance falls through every
check (it is no array/Map/Set/Some/Right and its constructor is not
registered) and contributes nothing. -/
def entitiesSet (h : Heap) : Val → List Nat → Except Nat (List Nat)
  | Val.vleft w, acc =>
    match leftErrOf w with
    | some e => Except.error e
    | none => Except.ok acc
  | Val.arr xs, acc =>
    match collectSets h xs acc with
    | Except.error e => Except.error e
    | Except.ok sets => Except.ok (unionInto acc sets)
  | Val.vmap xs, acc =>
    match collectSets h xs acc with
    | Except.error e => Except.error e
    | Except.ok sets => Except.ok (unionInto acc sets)
  | Val.vset xs, acc =>
    match collectSets h xs acc with
    | Except.error e => Except.error e
    | Except.ok sets => Except.ok (unionInto acc sets)
  | Val.vsome w, acc => if isNullV w then Except.ok acc else entitiesSet h w acc
  | Val.vright w, acc => if isNullV w then Except.ok acc else entitiesSet h w acc
  | Val.ent i, acc =>
    if isEntity h (Val.ent i) then
      if noPersistF (getEnt h i) then Except.ok acc
      else Except.ok (addEnt acc i)
    else Except.ok acc
  | Val.vnull, acc => Except.ok acc
  | Val.scalar _, acc => Except.ok acc
  | Val.errObj _, acc => Except.ok acc
  | Val.obj _, acc => Except.ok acc

/-- The `maybeEntity.map(maybeEnt => entitiesSet(maybeEnt, entities))` step
of `arrayToSet` (src/index.ts line 85): every element is collected against
the same incoming accumulator; a thrown error from any element propagates
(JS `Array.prototype.map` runs in order and an exception aborts it). -/
def collectSets (h : Heap) : List Val → List Nat → Except Nat (List (List Nat))
  | [], _acc => Except.ok []
  | x :: xs, acc =>
    match entitiesSet h x acc with
    | Except.error e => Except.error e
    | Except.ok s =>
      match collectSets h xs acc with
      | Except.error e => Except.error e
      | Except.ok rest => Except.ok (s :: rest)
end

/-- The helper `arrayToSet` (src/index.ts lines 84-89), as the composition that is
inlined in the container cases of `entitiesSet` above. -/
def arrayToSet (h : Heap) (xs : List Val) (acc : List Nat) : Except Nat (List Nat) :=
  match collectSets h xs acc with
  | Except.error e => Except.error e
  | Except.ok sets => Except.ok (unionInto acc sets)

mutual
/-- The `Error` payloads of every failure wrapper the collector's traversal
reaches in `v`, in traversal order (the collector itself throws the first
one; this function only lists them and performs no collection). -/
def leftErrors : Val → List Nat
  | Val.vleft w =>
    match leftErrOf w with
    | some e => [e]
    | none => []
  | Val.arr xs => leftErrorsList xs
  | Val.vmap xs => leftErrorsList xs
  | Val.vset xs => leftErrorsList xs
  | Val.vsome w => if isNullV w then [] else leftErrors w
  | Val.vright w => if isNullV w then [] else leftErrors w
  | _ => []

/-- The function `leftErrors` over the elements of a traversed container, in order. -/
def leftErrorsList : List Val → List Nat
  | [] => []
  | x :: xs => leftErrors x ++ leftErrorsList xs
end

/-- The primary-key filter map built by `fetchExistingEntity` and `getRef`
(src/index.ts lines 93-94, 134-137): field-name to field-value pairs over
the primary-key field names declared in the storage engine's metadata. -/
abbrev PkMap := List (String × Option FVal)

/-- The map `Object.fromEntries(pks.map(pk => [pk, entity[pk]]))`
(src/index.ts line 94). -/
def pkMapOf (meta : List String) (e : EntData) : PkMap :=
  meta.map (fun k => (k, fieldVal e.fields k))

/-- A stored row matches a primary-key filter map when every primary-key
field of the filter equals the row's field. -/
def rowMatches (row : Fields) (pkm : PkMap) : Bool :=
  pkm.all (fun p => fieldVal row p.1 == p.2)

/-- One observable call against the storage session.  `findCallFor i pkm`:
`em.findOne` issued while handling the collected entity `i`; `dbRead pkm`:
the storage read performed by a `findOne` that missed the session's
identity map; `getRefFor i pkm`: `em.getReference` issued for entity `i`;
`removeFor i`: `em.remove(entity i)`; `persistFor i t`: the `em.persist`
call issued for collected entity `i`, whose argument is the heap object
`t`; `flushEv`: `em.flush()`; `hookEv`: the registered post-persist hook
invocation. -/
inductive Ev where
  | findCallFor : Nat → PkMap → Ev
  | dbRead : PkMap → Ev
  | getRefFor : Nat → PkMap → Ev
  | removeFor : Nat → Ev
  | persistFor : Nat → Nat → Ev
  | flushEv : Ev
  | hookEv : Ev
deriving DecidableEq, Repr

/-- The heap object passed as argument to a persist/remove call, if the
event is one (lookups and reference requests take primary keys, not
entity objects). -/
def callArg : Ev → Option Nat
  | Ev.removeFor i => some i
  | Ev.persistFor _ t => some t
  | _ => none

/-- The collected entity on whose behalf a mark-for-removal or
mark-for-insert-or-update call was issued, if the event is such a call. -/
def markOf : Ev → Option Nat
  | Ev.removeFor i => some i
  | Ev.persistFor i _ => some i
  | _ => none

/-- The forked storage session of one lifecycle unit, modelled from the
spec's collaborator contract (spec sections 4.4 and 6): the primary-key
field names from the engine's metadata, the stored rows, the session's
identity map caching records already loaded by primary key (spec 4.4:
lookup "results are cached per entity"), the object heap, and the trace
of calls issued so far. -/
structure EMState where
  meta : List String
  db : List Fields
  heap : Heap
  imap : List (PkMap × Nat)
  trace : List Ev
deriving Repr

/-- Modelled from the spec: `Session.find-one(type, primary-key-map)`
(spec section 6), the storage engine call used by `fetchExistingEntity`.
The `@mikro-orm/core` `EntityManager` is an external collaborator, so its
behavior is taken from the spec: a primary-key lookup whose results are
cached per entity for later steps (spec 4.4 step 2).  A lookup that hits
the identity-map cache returns the already-loaded record without a
storage read; a miss reads storage, and a found row is materialised as a
fresh heap object and cached; a found `null` is not cached.  `who` is the
collected entity the lookup is issued for (trace bookkeeping only). -/
def findOne (st : EMState) (who : Nat) (pkm : PkMap) : EMState × Option Nat :=
  match st.imap.find? (fun p => decide (p.1 = pkm)) with
  | some p => ({ st with trace := st.trace ++ [Ev.findCallFor who pkm] }, some p.2)
  | none =>
    match st.db.find? (fun row => rowMatches row pkm) with
    | some row =>
      let id := st.heap.length
      ({ st with heap := st.heap ++ [{ registered := true, fields := row }],
                 imap := st.imap ++ [(pkm, id)],
                 trace := st.trace ++ [Ev.findCallFor who pkm, Ev.dbRead pkm] }, some id)
    | none =>
      ({ st with trace := st.trace ++ [Ev.findCallFor who pkm, Ev.dbRead pkm] }, none)

/-- The lookup `fetchExistingEntity` (src/index.ts lines 91-95): look the entity up by
the primary-key map built from the metadata's primary-key field names. -/
def fetchExistingEntity (st : EMState) (i : Nat) : EMState × Option Nat :=
  findOne st i (pkMapOf st.meta (getEnt st.heap i))

/-- Modelled from the spec: `Session.get-reference(type, pk)` (spec
section 6, used by `getRef`, src/index.ts lines 129-139): a lazy,
synchronous handle to the row with the given primary key — no storage
read.  A key already in the identity map yields the managed object;
otherwise a fresh reference object carrying just the primary-key fields
is created and cached. -/
def getReference (st : EMState) (who : Nat) (pkm : PkMap) : EMState × Nat :=
  match st.imap.find? (fun p => decide (p.1 = pkm)) with
  | some p => ({ st with trace := st.trace ++ [Ev.getRefFor who pkm] }, p.2)
  | none =>
    let id := st.heap.length
    ({ st with heap := st.heap ++ [{ registered := true, fields := pkm }],
               imap := st.imap ++ [(pkm, id)],
               trace := st.trace ++ [Ev.getRefFor who pkm] }, id)

/-- The field-merge loop of `persistEntity` (src/index.ts lines 107-109):
`Object.entries(entity).filter(([, v]) => v !== void 0)
  .forEach(([k, v]) => (updated[k] = v))` —
every own field of the source whose value is not `undefined` is assigned
onto the target, in entry order.  `setField` is one JS property
assignment: it overwrites an existing key in place or appends a new one. -/
def setField (fs : Fields) (k : String) (v : Option FVal) : Fields :=
  if fs.any (fun p => p.1 == k) then
    fs.map (fun p => if p.1 == k then (k, v) else p)
  else fs ++ [(k, v)]

/-- See `setField`: the whole merge of defined source fields onto the
target record. -/
def mergeFields (src target : Fields) : Fields :=
  (src.filter (fun p => p.2 ≠ none)).foldl (fun t p => setField t p.1 p.2) target

/-- The resolver `persistEntity` (src/index.ts lines 97-113): `$forDelete` returns with
`em.remove(entity)` before anything else; otherwise `updated` is the lazy
reference (`$forUpdate`), the awaited existing-record lookup
(`$forUpsert`), or `null`; if `updated` is non-null every defined field of
the entity is merged onto it; finally `em.persist(updated ?? entity)`. -/
def persistEntity (st : EMState) (i : Nat) : EMState :=
  let e := getEnt st.heap i
  if forDeleteF e then { st with trace := st.trace ++ [Ev.removeFor i] }
  else
    let r : EMState × Option Nat :=
      if forUpdateF e then
        let g := getReference st i (pkMapOf st.meta e)
        (g.1, some g.2)
      else if forUpsertF e then fetchExistingEntity st i
      else (st, none)
    match r with
    | (st1, some u) =>
      let merged := mergeFields e.fields (getEnt st1.heap u).fields
      { st1 with heap := st1.heap.set u { getEnt st1.heap u with fields := merged },
                 trace := st1.trace ++ [Ev.persistFor i u] }
    | (st1, none) => { st1 with trace := st1.trace ++ [Ev.persistFor i i] }

/-- The persistence steps of `wrapTsFpDiMikroorm` (src/index.ts lines
36-40): prefetch the existing records of every `$forUpsert` entity, then
persist every collected entity, then flush once.  The `await` barriers
between the prefetch batch, the persist batch and the flush are faithful
to the source; the operations inside each `Promise.all` batch, which the
source launches concurrently, are sequentialised here in list order, so
only facts that do not depend on the order (or cache interaction) of
operations within one batch are stated about this function. -/
def orchestrate (st : EMState) (entities : List Nat) : EMState :=
  let ups := entities.filter (fun i => forUpsertF (getEnt st.heap i))
  let st1 := ups.foldl (fun s i => (fetchExistingEntity s i).1) st
  let st2 := entities.foldl persistEntity st1
  { st2 with trace := st2.trace ++ [Ev.flushEv] }

/-- Input of one lifecycle unit: the primary-key metadata, the stored
rows, the heap of objects existing when caller logic finishes, the
identity-map entries the forked session holds at that moment (records the
caller loaded or referenced through `em()` while `cb` ran, keyed by
primary key — `orm.em.fork()` starts the map empty, but caller logic may
populate it, and such an entry may point at an entity sitting in a state
slot), the outcome of the caller logic `cb` (its value, or the error it
threw), the current values of all state slots (`state` ++ `once` ++
`derived`, src/index.ts lines 30-34), and the `onPersist` hook registered
during the unit, as its outcome (`none` when no hook was registered). -/
structure WrapInput where
  meta : List String
  db : List Fields
  heap : Heap
  imap : List (PkMap × Nat)
  cb : Except Nat Nat
  slots : List Val
  hook : Option (Except Nat Unit)

/-- The session when the wrapper's persistence step starts: the fork's
identity map holds whatever caller logic loaded during `cb` (`inp.imap`);
only the persistence step's own storage calls are traced from here, so
the trace starts empty. -/
def initState (inp : WrapInput) : EMState :=
  { meta := inp.meta, db := inp.db, heap := inp.heap, imap := inp.imap, trace := [] }

/-- The wrapper `wrapTsFpDiMikroorm` (src/index.ts lines 21-48).  If `cb` rejects, the
wrapper rejects with the same error and nothing further runs.  Otherwise
the state-slot union is collected (`entitiesSet(allState)`; a thrown
collection error likewise rejects the wrapper before any storage call),
the orchestrator runs and flushes, and the registered hook — if any — is
invoked once after the flush; a hook error rejects the wrapper.  Returns
the wrapper's outcome and the trace of storage/hook calls issued. -/
def wrapTsFpDiMikroorm (inp : WrapInput) : Except Nat Nat × List Ev :=
  match inp.cb with
  | Except.error e => (Except.error e, [])
  | Except.ok resp =>
    match entitiesSet inp.heap (Val.arr inp.slots) [] with
    | Except.error e => (Except.error e, [])
    | Except.ok entities =>
      let st := orchestrate (initState inp) entities
      match inp.hook with
      | none => (Except.ok resp, st.trace)
      | some (Except.ok _) => (Except.ok resp, st.trace ++ [Ev.hookEv])
      | some (Except.error e) => (Except.error e, st.trace ++ [Ev.hookEv])

/-- Events issued by one lifecycle unit. -/
def wrapEvents (inp : WrapInput) : List Ev := (wrapTsFpDiMikroorm inp).2

/-- Outcome of one lifecycle unit. -/
def wrapResult (inp : WrapInput) : Except Nat Nat := (wrapTsFpDiMikroorm inp).1

/-- Ids kept at least `n`: the session invariant that every identity-map
entry points at a record allocated at or above heap position `n`. -/
def InvN (n : Nat) (st : EMState) : Prop :=
  n ≤ st.heap.length ∧ ∀ p ∈ st.imap, n ≤ p.2

def entC1 : EntData :=
  { registered := true, fields := [("id", some (FVal.num 1)), ("value", some (FVal.str "test"))] }

def inpC1 : WrapInput :=
  { meta := ["id"], db := [], heap := [entC1], imap := [], cb := Except.ok 0,
    slots := [Val.ent 0, Val.ent 0], hook := none }

def inpC2 : WrapInput :=
  { meta := ["id"], db := [], heap := [entC1], imap := [], cb := Except.error 5,
    slots := [Val.ent 0], hook := none }

def entC3 : EntData :=
  { registered := true,
    fields := [("id", some (FVal.num 1)), ("value", some (FVal.str "test")),
               ("$forUpsert", some (FVal.fbool true))] }

def rowC3 : Fields := [("id", some (FVal.num 1)), ("value", some (FVal.str "wrong"))]

def stC3 : EMState := { meta := ["id"], db := [rowC3], heap := [entC3], imap := [], trace := [] }

def entC4 : EntData :=
  { registered := true,
    fields := [("id", some (FVal.num 1)), ("$forDelete", some (FVal.fbool true)),
               ("$forUpsert", some (FVal.fbool true)), ("$forUpdate", some (FVal.fbool true))] }

def stC4 : EMState := { meta := ["id"], db := [], heap := [entC4], imap := [], trace := [] }

def srcC5 : Fields :=
  [("a", some (FVal.num 1)), ("b", none), ("c", some FVal.fnull)]

def targetC5 : Fields :=
  [("a", some (FVal.num 9)), ("b", some (FVal.num 8)), ("d", some (FVal.num 7))]

def entC6 : EntData :=
  { registered := true,
    fields := [("id", some (FVal.num 1)), ("value", some (FVal.str "old")),
               ("$noPersist", some (FVal.fbool true))] }

def entC6b : EntData :=
  { registered := true,
    fields := [("id", some (FVal.num 1)), ("value", some (FVal.str "new")),
               ("$forUpsert", some (FVal.fbool true))] }

def pkmC6 : PkMap := [("id", some (FVal.num 1))]

def rowC6 : Fields := [("id", some (FVal.num 1)), ("value", some (FVal.str "old"))]

def inpC6 : WrapInput :=
  { meta := ["id"], db := [rowC6], heap := [entC6, entC6b], imap := [(pkmC6, 0)],
    cb := Except.ok 0, slots := [Val.ent 0, Val.ent 1], hook := none }

def inpC7 : WrapInput :=
  { meta := ["id"], db := [], heap := [entC1], imap := [], cb := Except.ok 0,
    slots := [Val.vleft (Val.scalar 7), Val.ent 0], hook := none }

def inpC7b : WrapInput :=
  { meta := ["id"], db := [], heap := [entC1], imap := [], cb := Except.ok 0,
    slots := [Val.vleft (Val.errObj 3), Val.ent 0], hook := none }

def inpC8 : WrapInput :=
  { meta := ["id"], db := [], heap := [entC3], imap := [], cb := Except.ok 0,
    slots := [Val.ent 0], hook := none }

def inpC9 : WrapInput :=
  { meta := ["id"], db := [], heap := [entC1], imap := [], cb := Except.ok 7,
    slots := [Val.ent 0], hook := some (Except.error 9) }

theorem addEnt_eq_append (l : List Nat) (i : Nat) : ∃ t, addEnt l i = l ++ t := by
  unfold addEnt
  split
  · exact ⟨[], by simp⟩
  · exact ⟨[i], rfl⟩

theorem mem_addEnt {l : List Nat} {i j : Nat} : j ∈ addEnt l i ↔ j ∈ l ∨ j = i := by
  unfold addEnt
  split
  · rename_i hmem
    constructor
    · exact fun hj => Or.inl hj
    · rintro (hj | rfl)
      · exact hj
      · exact hmem
  · simp [List.mem_append]

theorem addEnt_nodup {l : List Nat} (hl : l.Nodup) (i : Nat) : (addEnt l i).Nodup := by
  unfold addEnt
  split
  · exact hl
  · rename_i hni
    simp [List.nodup_append, hl, hni]

theorem foldl_addEnt_eq_append (s : List Nat) : ∀ resp, ∃ t, s.foldl addEnt resp = resp ++ t := by
  induction s with
  | nil => exact fun resp => ⟨[], by simp⟩
  | cons a s ih =>
    intro resp
    obtain ⟨t1, ht1⟩ := addEnt_eq_append resp a
    obtain ⟨t2, ht2⟩ := ih (addEnt resp a)
    refine ⟨t1 ++ t2, ?_⟩
    rw [List.foldl_cons, ht2, ht1, List.append_assoc]

theorem mem_foldl_addEnt (s : List Nat) : ∀ resp j, j ∈ s.foldl addEnt resp ↔ j ∈ resp ∨ j ∈ s := by
  induction s with
  | nil => simp
  | cons a s ih =>
    intro resp j
    rw [List.foldl_cons, ih, mem_addEnt]
    simp [or_assoc]

theorem foldl_addEnt_nodup (s : List Nat) : ∀ resp, resp.Nodup → (s.foldl addEnt resp).Nodup := by
  induction s with
  | nil => exact fun _ hr => hr
  | cons a s ih =>
    intro resp hr
    exact ih _ (addEnt_nodup hr a)

theorem unionInto_cons (acc : List Nat) (s : List Nat) (sets : List (List Nat)) :
    unionInto acc (s :: sets) = unionInto (s.foldl addEnt acc) sets := by
  simp [unionInto, List.foldl_cons]

theorem unionInto_eq_append (sets : List (List Nat)) : ∀ acc, ∃ t, unionInto acc sets = acc ++ t := by
  induction sets with
  | nil => exact fun acc => ⟨[], by simp [unionInto]⟩
  | cons s sets ih =>
    intro acc
    obtain ⟨t1, ht1⟩ := foldl_addEnt_eq_append s acc
    obtain ⟨t2, ht2⟩ := ih (s.foldl addEnt acc)
    exact ⟨t1 ++ t2, by rw [unionInto_cons, ht2, ht1, List.append_assoc]⟩

theorem unionInto_nodup (sets : List (List Nat)) : ∀ acc, acc.Nodup → (unionInto acc sets).Nodup := by
  induction sets with
  | nil => exact fun _ h => by simpa [unionInto] using h
  | cons s sets ih =>
    intro acc h
    rw [unionInto_cons]
    exact ih _ (foldl_addEnt_nodup s acc h)

theorem mem_unionInto (sets : List (List Nat)) :
    ∀ acc j, j ∈ unionInto acc sets ↔ j ∈ acc ∨ ∃ s ∈ sets, j ∈ s := by
  induction sets with
  | nil => simp [unionInto]
  | cons s sets ih =>
    intro acc j
    rw [unionInto_cons, ih, mem_foldl_addEnt]
    constructor
    · rintro ((hj | hj) | ⟨s', hs', hj⟩)
      · exact Or.inl hj
      · exact Or.inr ⟨s, by simp, hj⟩
      · exact Or.inr ⟨s', by simp [hs'], hj⟩
    · rintro (hj | ⟨s', hs', hj⟩)
      · exact Or.inl (Or.inl hj)
      · rcases List.mem_cons.mp hs' with rfl | hs'
        · exact Or.inl (Or.inr hj)
        · exact Or.inr ⟨s', hs', hj⟩

theorem collector_ok_facts (h : Heap) :
    (∀ v acc, ∀ l, entitiesSet h v acc = Except.ok l →
      (∃ t, l = acc ++ t) ∧ (acc.Nodup → l.Nodup) ∧
      (∀ i, i ∈ l → i ∈ acc ∨ ((getEnt h i).registered = true ∧ noPersistF (getEnt h i) = false))) ∧
    (∀ xs acc, ∀ ls, collectSets h xs acc = Except.ok ls →
      ∀ s, s ∈ ls →
        (∃ t, s = acc ++ t) ∧ (acc.Nodup → s.Nodup) ∧
        (∀ i, i ∈ s → i ∈ acc ∨ ((getEnt h i).registered = true ∧ noPersistF (getEnt h i) = false))) := by
  apply entitiesSet.mutual_induct h
    (fun v acc => ∀ l, entitiesSet h v acc = Except.ok l →
      (∃ t, l = acc ++ t) ∧ (acc.Nodup → l.Nodup) ∧
      (∀ i, i ∈ l → i ∈ acc ∨ ((getEnt h i).registered = true ∧ noPersistF (getEnt h i) = false)))
    (fun xs acc => ∀ ls, collectSets h xs acc = Except.ok ls →
      ∀ s, s ∈ ls →
        (∃ t, s = acc ++ t) ∧ (acc.Nodup → s.Nodup) ∧
        (∀ i, i ∈ s → i ∈ acc ∨ ((getEnt h i).registered = true ∧ noPersistF (getEnt h i) = false)))
  case case1 =>
    intro w acc e hErr l hl
    simp [entitiesSet, hErr] at hl
  case case2 =>
    intro w acc hErr l hl
    simp [entitiesSet, hErr] at hl
    subst hl
    exact ⟨⟨[], by simp⟩, fun hn => hn, fun i hi => Or.inl hi⟩
  case case3 =>
    intro xs acc e hc _ l hl
    simp [entitiesSet, hc] at hl
  case case4 =>
    intro xs acc sets hc IH l hl
    simp [entitiesSet, hc] at hl
    subst hl
    refine ⟨unionInto_eq_append sets acc, unionInto_nodup sets acc, ?_⟩
    intro i hi
    rcases (mem_unionInto sets acc i).mp hi with hi | ⟨s, hs, hi⟩
    · exact Or.inl hi
    · exact (IH sets hc s hs).2.2 i hi
  case case5 =>
    intro xs acc e hc _ l hl
    simp [entitiesSet, hc] at hl
  case case6 =>
    intro xs acc sets hc IH l hl
    simp [entitiesSet, hc] at hl
    subst hl
    refine ⟨unionInto_eq_append sets acc, unionInto_nodup sets acc, ?_⟩
    intro i hi
    rcases (mem_unionInto sets acc i).mp hi with hi | ⟨s, hs, hi⟩
    · exact Or.inl hi
    · exact (IH sets hc s hs).2.2 i hi
  case case7 =>
    intro xs acc e hc _ l hl
    simp [entitiesSet, hc] at hl
  case case8 =>
    intro xs acc sets hc IH l hl
    simp [entitiesSet, hc] at hl
    subst hl
    refine ⟨unionInto_eq_append sets acc, unionInto_nodup sets acc, ?_⟩
    intro i hi
    rcases (mem_unionInto sets acc i).mp hi with hi | ⟨s, hs, hi⟩
    · exact Or.inl hi
    · exact (IH sets hc s hs).2.2 i hi
  case case9 =>
    intro w acc hnull l hl
    simp [entitiesSet, hnull] at hl
    subst hl
    exact ⟨⟨[], by simp⟩, fun hn => hn, fun i hi => Or.inl hi⟩
  case case10 =>
    intro w acc hnull IH l hl
    simp [entitiesSet, hnull] at hl
    exact IH l hl
  case case11 =>
    intro w acc hnull l hl
    simp [entitiesSet, hnull] at hl
    subst hl
    exact ⟨⟨[], by simp⟩, fun hn => hn, fun i hi => Or.inl hi⟩
  case case12 =>
    intro w acc hnull IH l hl
    simp [entitiesSet, hnull] at hl
    exact IH l hl
  case case13 =>
    intro i acc hreg hnp l hl
    simp [entitiesSet, hreg, hnp] at hl
    subst hl
    exact ⟨⟨[], by simp⟩, fun hn => hn, fun j hj => Or.inl hj⟩
  case case14 =>
    intro i acc hreg hnp l hl
    simp [entitiesSet, hreg, hnp] at hl
    subst hl
    refine ⟨addEnt_eq_append acc i, fun hn => addEnt_nodup hn i, ?_⟩
    intro j hj
    rcases mem_addEnt.mp hj with hj | rfl
    · exact Or.inl hj
    · refine Or.inr ⟨by simpa [isEntity] using hreg, ?_⟩
      simpa using hnp
  case case15 =>
    intro i acc hreg l hl
    simp [entitiesSet, hreg] at hl
    subst hl
    exact ⟨⟨[], by simp⟩, fun hn => hn, fun j hj => Or.inl hj⟩
  case case16 =>
    intro acc l hl
    simp [entitiesSet] at hl
    subst hl
    exact ⟨⟨[], by simp⟩, fun hn => hn, fun j hj => Or.inl hj⟩
  case case17 =>
    intro n acc l hl
    simp [entitiesSet] at hl
    subst hl
    exact ⟨⟨[], by simp⟩, fun hn => hn, fun j hj => Or.inl hj⟩
  case case18 =>
    intro n acc l hl
    simp [entitiesSet] at hl
    subst hl
    exact ⟨⟨[], by simp⟩, fun hn => hn, fun j hj => Or.inl hj⟩
  case case19 =>
    intro fs acc l hl
    simp [entitiesSet] at hl
    subst hl
    exact ⟨⟨[], by simp⟩, fun hn => hn, fun j hj => Or.inl hj⟩
  case case20 =>
    intro acc ls hls
    simp [collectSets] at hls
    subst hls
    intro s hs
    simp at hs
  case case21 =>
    intro x xs acc e hx _ ls hls
    simp [collectSets, hx] at hls
  case case22 =>
    intro x xs acc s hx e hc _ _ ls hls
    simp [collectSets, hx, hc] at hls
  case case23 =>
    intro x xs acc s hx sets hc IHx IHxs ls hls
    simp [collectSets, hx, hc] at hls
    subst hls
    intro s' hs'
    rcases List.mem_cons.mp hs' with rfl | hs'
    · exact IHx s' hx
    · exact IHxs sets hc s' hs'

theorem collector_error_iff (h : Heap) :
    (∀ v acc, ∀ e, entitiesSet h v acc = Except.error e ↔ (leftErrors v).head? = some e) ∧
    (∀ xs acc, ∀ e, collectSets h xs acc = Except.error e ↔ (leftErrorsList xs).head? = some e) := by
  apply entitiesSet.mutual_induct h
    (fun v acc => ∀ e, entitiesSet h v acc = Except.error e ↔ (leftErrors v).head? = some e)
    (fun xs acc => ∀ e, collectSets h xs acc = Except.error e ↔ (leftErrorsList xs).head? = some e)
  case case1 =>
    intro w acc e0 hErr e
    simp [entitiesSet, leftErrors, hErr]
  case case2 =>
    intro w acc hErr e
    simp [entitiesSet, leftErrors, hErr]
  case case3 =>
    intro xs acc e0 hc IH e
    simp [entitiesSet, leftErrors, hc, (IH e0).mp hc]
  case case4 =>
    intro xs acc sets hc IH e
    simp [entitiesSet, leftErrors, hc]
    intro hh
    have hcontra := (IH e).mpr hh
    simp [hc] at hcontra
  case case5 =>
    intro xs acc e0 hc IH e
    simp [entitiesSet, leftErrors, hc, (IH e0).mp hc]
  case case6 =>
    intro xs acc sets hc IH e
    simp [entitiesSet, leftErrors, hc]
    intro hh
    have hcontra := (IH e).mpr hh
    simp [hc] at hcontra
  case case7 =>
    intro xs acc e0 hc IH e
    simp [entitiesSet, leftErrors, hc, (IH e0).mp hc]
  case case8 =>
    intro xs acc sets hc IH e
    simp [entitiesSet, leftErrors, hc]
    intro hh
    have hcontra := (IH e).mpr hh
    simp [hc] at hcontra
  case case9 =>
    intro w acc hnull e
    simp [entitiesSet, leftErrors, hnull]
  case case10 =>
    intro w acc hnull IH e
    simp only [entitiesSet, leftErrors, hnull, if_false, Bool.false_eq_true]
    exact IH e
  case case11 =>
    intro w acc hnull e
    simp [entitiesSet, leftErrors, hnull]
  case case12 =>
    intro w acc hnull IH e
    simp only [entitiesSet, leftErrors, hnull, if_false, Bool.false_eq_true]
    exact IH e
  case case13 =>
    intro i acc hreg hnp e
    simp [entitiesSet, leftErrors, hreg, hnp]
  case case14 =>
    intro i acc hreg hnp e
    simp [entitiesSet, leftErrors, hreg, hnp]
  case case15 =>
    intro i acc hreg e
    simp [entitiesSet, leftErrors, hreg]
  case case16 =>
    intro acc e
    simp [entitiesSet, leftErrors]
  case case17 =>
    intro n acc e
    simp [entitiesSet, leftErrors]
  case case18 =>
    intro n acc e
    simp [entitiesSet, leftErrors]
  case case19 =>
    intro fs acc e
    simp [entitiesSet, leftErrors]
  case case20 =>
    intro acc e
    simp [collectSets, leftErrorsList]
  case case21 =>
    intro x xs acc e0 hx IHx e
    have hx0 := (IHx e0).mp hx
    cases hlx : leftErrors x with
    | nil => simp [hlx] at hx0
    | cons a t =>
      rw [hlx] at hx0
      simp at hx0
      subst hx0
      simp [collectSets, leftErrorsList, hx, hlx]
  case case22 =>
    intro x xs acc s hx e0 hc IHx IHxs e
    have hlx : leftErrors x = [] := by
      cases hlx' : leftErrors x with
      | nil => rfl
      | cons a t =>
        have hcontra := (IHx a).mpr (by simp [hlx'])
        simp [hx] at hcontra
    simp [collectSets, leftErrorsList, hx, hc, hlx, (IHxs e0).mp hc]
  case case23 =>
    intro x xs acc s hx sets hc IHx IHxs e
    have hlx : leftErrors x = [] := by
      cases hlx' : leftErrors x with
      | nil => rfl
      | cons a t =>
        have hcontra := (IHx a).mpr (by simp [hlx'])
        simp [hx] at hcontra
    simp [collectSets, leftErrorsList, hx, hc, hlx]
    intro hh
    have hcontra := (IHxs e).mpr hh
    simp [hc] at hcontra

theorem getEnt_append {h : Heap} {x : EntData} {i : Nat} (hi : i < h.length) :
    getEnt (h ++ [x]) i = getEnt h i := by
  unfold getEnt
  exact List.getD_append _ _ _ _ hi

theorem getEnt_set_ne {h : Heap} {u i : Nat} {x : EntData} (hne : i ≠ u) :
    getEnt (h.set u x) i = getEnt h i := by
  unfold getEnt
  rw [List.getD_eq_getElem?_getD, List.getD_eq_getElem?_getD, List.getElem?_set_ne (Ne.symm hne)]

theorem forUpsert_lt_length {h : Heap} {i : Nat} (hu : forUpsertF (getEnt h i) = true) :
    i < h.length := by
  by_contra hlt
  have hd : getEnt h i = default := by
    unfold getEnt
    exact List.getD_eq_default _ _ (Nat.le_of_not_lt hlt)
  rw [hd] at hu
  simp [forUpsertF, fieldVal, truthy, default] at hu

theorem initState_inv0 (inp : WrapInput) : InvN 0 (initState inp) :=
  ⟨Nat.zero_le _, fun _ _ => Nat.zero_le _⟩

theorem findOne_trace_mem (st : EMState) (who : Nat) (pkm : PkMap) :
    Ev.findCallFor who pkm ∈ (findOne st who pkm).1.trace := by
  unfold findOne
  cases himap : st.imap.find? (fun q => decide (q.1 = pkm)) with
  | some p => simp
  | none =>
    cases hdb : st.db.find? (fun row => rowMatches row pkm) with
    | some row => simp
    | none => simp

theorem findOne_heap_stable (st : EMState) (who : Nat) (pkm : PkMap) :
    ∀ i, i < st.heap.length → getEnt (findOne st who pkm).1.heap i = getEnt st.heap i := by
  intro i hi
  unfold findOne
  cases himap : st.imap.find? (fun q => decide (q.1 = pkm)) with
  | some p => rfl
  | none =>
    cases hdb : st.db.find? (fun row => rowMatches row pkm) with
    | some row => exact getEnt_append hi
    | none => rfl

theorem findOne_step {n : Nat} {st : EMState} (who : Nat) (pkm : PkMap) (hInv : InvN n st) :
    InvN n (findOne st who pkm).1 ∧ (findOne st who pkm).1.meta = st.meta ∧
    (findOne st who pkm).1.db = st.db ∧
    st.heap.length ≤ (findOne st who pkm).1.heap.length ∧
    (∀ i, i < n → getEnt (findOne st who pkm).1.heap i = getEnt st.heap i) ∧
    (∃ t, (findOne st who pkm).1.trace = st.trace ++ t ∧ Ev.findCallFor who pkm ∈ t ∧
      ∀ ev ∈ t, markOf ev = none ∧ callArg ev = none ∧ ev ≠ Ev.flushEv ∧ ev ≠ Ev.hookEv) ∧
    (∀ u, (findOne st who pkm).2 = some u → n ≤ u) := by
  unfold findOne
  cases himap : st.imap.find? (fun q => decide (q.1 = pkm)) with
  | some p =>
    refine ⟨⟨hInv.1, hInv.2⟩, rfl, rfl, le_refl _, fun i _ => rfl,
      ⟨[Ev.findCallFor who pkm], rfl, by simp, ?_⟩, ?_⟩
    · intro ev hev
      simp at hev
      subst hev
      exact ⟨rfl, rfl, by simp, by simp⟩
    · intro u hu
      simp at hu
      subst hu
      exact hInv.2 p (List.mem_of_find?_eq_some himap)
  | none =>
    cases hdb : st.db.find? (fun row => rowMatches row pkm) with
    | some row =>
      refine ⟨⟨?_, ?_⟩, rfl, rfl, by simp, ?_,
        ⟨[Ev.findCallFor who pkm, Ev.dbRead pkm], rfl, by simp, ?_⟩, ?_⟩
      · simp
        exact le_trans hInv.1 (Nat.le_succ_of_le (le_refl _))
      · intro p hp
        simp at hp
        rcases hp with hp | hp
        · exact hInv.2 p hp
        · subst hp
          exact hInv.1
      · intro i hi
        exact getEnt_append (lt_of_lt_of_le hi hInv.1)
      · intro ev hev
        simp at hev
        rcases hev with hev | hev <;> subst hev <;> exact ⟨rfl, rfl, by simp, by simp⟩
      · intro u hu
        simp at hu
        rw [← hu]
        exact hInv.1
    | none =>
      refine ⟨⟨hInv.1, hInv.2⟩, rfl, rfl, le_refl _, fun i _ => rfl,
        ⟨[Ev.findCallFor who pkm, Ev.dbRead pkm], rfl, by simp, ?_⟩, ?_⟩
      · intro ev hev
        simp at hev
        rcases hev with hev | hev <;> subst hev <;> exact ⟨rfl, rfl, by simp, by simp⟩
      · intro u hu
        simp at hu

theorem getReference_step {n : Nat} {st : EMState} (who : Nat) (pkm : PkMap) (hInv : InvN n st) :
    InvN n (getReference st who pkm).1 ∧ (getReference st who pkm).1.meta = st.meta ∧
    (getReference st who pkm).1.db = st.db ∧
    st.heap.length ≤ (getReference st who pkm).1.heap.length ∧
    (∀ i, i < n → getEnt (getReference st who pkm).1.heap i = getEnt st.heap i) ∧
    (∃ t, (getReference st who pkm).1.trace = st.trace ++ t ∧
      ∀ ev ∈ t, markOf ev = none ∧ callArg ev = none ∧ ev ≠ Ev.flushEv ∧ ev ≠ Ev.hookEv) ∧
    n ≤ (getReference st who pkm).2 := by
  unfold getReference
  cases himap : st.imap.find? (fun q => decide (q.1 = pkm)) with
  | some p =>
    refine ⟨⟨hInv.1, hInv.2⟩, rfl, rfl, le_refl _, fun i _ => rfl, ⟨[Ev.getRefFor who pkm], rfl, ?_⟩, ?_⟩
    · intro ev hev
      simp at hev
      subst hev
      exact ⟨rfl, rfl, by simp, by simp⟩
    · exact hInv.2 p (List.mem_of_find?_eq_some himap)
  | none =>
    refine ⟨⟨?_, ?_⟩, rfl, rfl, by simp, ?_, ⟨[Ev.getRefFor who pkm], rfl, ?_⟩, hInv.1⟩
    · simp
      exact le_trans hInv.1 (Nat.le_succ_of_le (le_refl _))
    · intro p hp
      simp at hp
      rcases hp with hp | hp
      · exact hInv.2 p hp
      · subst hp
        exact hInv.1
    · intro i hi
      exact getEnt_append (lt_of_lt_of_le hi hInv.1)
    · intro ev hev
      simp at hev
      subst hev
      exact ⟨rfl, rfl, by simp, by simp⟩

theorem persistEntity_step {n : Nat} {st : EMState} (i : Nat) (hInv : InvN n st) :
    InvN n (persistEntity st i) ∧ (persistEntity st i).meta = st.meta ∧
    (persistEntity st i).db = st.db ∧
    st.heap.length ≤ (persistEntity st i).heap.length ∧
    (∀ j, j < n → getEnt (persistEntity st i).heap j = getEnt st.heap j) ∧
    (∃ t, (persistEntity st i).trace = st.trace ++ t ∧ t.filterMap markOf = [i] ∧
      ∀ ev ∈ t, (∀ j, callArg ev = some j → j = i ∨ n ≤ j) ∧ ev ≠ Ev.flushEv ∧ ev ≠ Ev.hookEv) := by
  by_cases hDel : forDeleteF (getEnt st.heap i) = true
  · have hpe : persistEntity st i = { st with trace := st.trace ++ [Ev.removeFor i] } := by
      simp [persistEntity, hDel]
    rw [hpe]
    refine ⟨⟨hInv.1, hInv.2⟩, rfl, rfl, le_refl _, fun j _ => rfl,
      ⟨[Ev.removeFor i], rfl, by simp [markOf], ?_⟩⟩
    intro ev hev
    simp at hev
    subst hev
    refine ⟨?_, by simp, by simp⟩
    intro j hj
    simp [callArg] at hj
    exact Or.inl hj.symm
  · by_cases hUpd : forUpdateF (getEnt st.heap i) = true
    · have hG := getReference_step i (pkMapOf st.meta (getEnt st.heap i)) hInv
      obtain ⟨hGInv, hGmeta, hGdb, hGlen, hGbelow, ⟨tg, hGtr, hGev⟩, hGu⟩ := hG
      set g := getReference st i (pkMapOf st.meta (getEnt st.heap i)) with hg
      have hpe : persistEntity st i =
          { g.1 with
              heap := g.1.heap.set g.2 { getEnt g.1.heap g.2 with
                fields := mergeFields (getEnt st.heap i).fields (getEnt g.1.heap g.2).fields },
              trace := g.1.trace ++ [Ev.persistFor i g.2] } := by
        simp [persistEntity, hDel, hUpd, hg]
      rw [hpe]
      refine ⟨?_, ?_, ?_, ?_, ?_, ?_⟩
      · exact ⟨by simpa using hGInv.1, by simpa using hGInv.2⟩
      · simpa using hGmeta
      · simpa using hGdb
      · simpa using hGlen
      · intro j hj
        have hne : j ≠ g.2 := Nat.ne_of_lt (lt_of_lt_of_le hj hGu)
        simpa [getEnt_set_ne hne] using hGbelow j hj
      · refine ⟨tg ++ [Ev.persistFor i g.2], by simp [hGtr], ?_, ?_⟩
        · rw [List.filterMap_append]
          rw [List.filterMap_eq_nil_iff.mpr (fun ev hev => (hGev ev hev).1)]
          simp [markOf]
        · intro ev hev
          rcases List.mem_append.mp hev with hev | hev
          · refine ⟨?_, (hGev ev hev).2.2.1, (hGev ev hev).2.2.2⟩
            intro j hj
            rw [(hGev ev hev).2.1] at hj
            simp at hj
          · simp at hev
            subst hev
            refine ⟨?_, by simp, by simp⟩
            intro j hj
            simp [callArg] at hj
            subst hj
            exact Or.inr hGu
    · by_cases hUps : forUpsertF (getEnt st.heap i) = true
      · have hF := findOne_step i (pkMapOf st.meta (getEnt st.heap i)) hInv
        obtain ⟨hFInv, hFmeta, hFdb, hFlen, hFbelow, ⟨tf, hFtr, hFmem, hFev⟩, hFu⟩ := hF
        rcases hfo : findOne st i (pkMapOf st.meta (getEnt st.heap i)) with ⟨st1, uopt⟩
        rw [hfo] at hFInv hFmeta hFdb hFlen hFbelow hFtr hFu
        dsimp only at hFInv hFmeta hFdb hFlen hFbelow hFtr hFu
        cases uopt with
        | some u =>
          have hu : n ≤ u := hFu u rfl
          have hpe : persistEntity st i =
              { st1 with
                  heap := st1.heap.set u { getEnt st1.heap u with
                    fields := mergeFields (getEnt st.heap i).fields (getEnt st1.heap u).fields },
                  trace := st1.trace ++ [Ev.persistFor i u] } := by
            simp [persistEntity, hDel, hUpd, hUps, fetchExistingEntity, hfo]
          rw [hpe]
          refine ⟨?_, ?_, ?_, ?_, ?_, ?_⟩
          · exact ⟨by simpa using hFInv.1, by simpa using hFInv.2⟩
          · simpa using hFmeta
          · simpa using hFdb
          · simpa using hFlen
          · intro j hj
            have hne : j ≠ u := Nat.ne_of_lt (lt_of_lt_of_le hj hu)
            simpa [getEnt_set_ne hne] using hFbelow j hj
          · refine ⟨tf ++ [Ev.persistFor i u], by simp [hFtr], ?_, ?_⟩
            · rw [List.filterMap_append]
              rw [List.filterMap_eq_nil_iff.mpr (fun ev hev => (hFev ev hev).1)]
              simp [markOf]
            · intro ev hev
              rcases List.mem_append.mp hev with hev | hev
              · refine ⟨?_, (hFev ev hev).2.2.1, (hFev ev hev).2.2.2⟩
                intro j hj
                rw [(hFev ev hev).2.1] at hj
                simp at hj
              · simp at hev
                subst hev
                refine ⟨?_, by simp, by simp⟩
                intro j hj
                simp [callArg] at hj
                subst hj
                exact Or.inr hu
        | none =>
          have hpe : persistEntity st i = { st1 with trace := st1.trace ++ [Ev.persistFor i i] } := by
            simp [persistEntity, hDel, hUpd, hUps, fetchExistingEntity, hfo]
          rw [hpe]
          refine ⟨⟨hFInv.1, hFInv.2⟩, hFmeta, hFdb, hFlen, hFbelow, ?_⟩
          refine ⟨tf ++ [Ev.persistFor i i], by simp [hFtr], ?_, ?_⟩
          · rw [List.filterMap_append]
            rw [List.filterMap_eq_nil_iff.mpr (fun ev hev => (hFev ev hev).1)]
            simp [markOf]
          · intro ev hev
            rcases List.mem_append.mp hev with hev | hev
            · refine ⟨?_, (hFev ev hev).2.2.1, (hFev ev hev).2.2.2⟩
              intro j hj
              rw [(hFev ev hev).2.1] at hj
              simp at hj
            · simp at hev
              subst hev
              refine ⟨?_, by simp, by simp⟩
              intro j hj
              simp [callArg] at hj
              exact Or.inl hj.symm
      · have hpe : persistEntity st i = { st with trace := st.trace ++ [Ev.persistFor i i] } := by
          simp [persistEntity, hDel, hUpd, hUps]
        rw [hpe]
        refine ⟨⟨hInv.1, hInv.2⟩, rfl, rfl, le_refl _, fun j _ => rfl,
          ⟨[Ev.persistFor i i], rfl, by simp [markOf], ?_⟩⟩
        intro ev hev
        simp at hev
        subst hev
        refine ⟨?_, by simp, by simp⟩
        intro j hj
        simp [callArg] at hj
        exact Or.inl hj.symm

theorem foldl_fetch_step (ups : List Nat) :
    ∀ {n : Nat} (st : EMState), InvN n st →
    InvN n (ups.foldl (fun s j => (fetchExistingEntity s j).1) st) ∧
    (ups.foldl (fun s j => (fetchExistingEntity s j).1) st).meta = st.meta ∧
    (ups.foldl (fun s j => (fetchExistingEntity s j).1) st).db = st.db ∧
    st.heap.length ≤ (ups.foldl (fun s j => (fetchExistingEntity s j).1) st).heap.length ∧
    (∀ i, i < n → getEnt (ups.foldl (fun s j => (fetchExistingEntity s j).1) st).heap i = getEnt st.heap i) ∧
    (∃ t, (ups.foldl (fun s j => (fetchExistingEntity s j).1) st).trace = st.trace ++ t ∧
      (∀ ev ∈ t, markOf ev = none ∧ callArg ev = none ∧ ev ≠ Ev.flushEv ∧ ev ≠ Ev.hookEv) ∧
      (∀ j ∈ ups, j < st.heap.length →
        Ev.findCallFor j (pkMapOf st.meta (getEnt st.heap j)) ∈ t)) := by
  induction ups with
  | nil =>
    intro n st hInv
    exact ⟨hInv, rfl, rfl, le_refl _, fun i _ => rfl, ⟨[], by simp, by simp, by simp⟩⟩
  | cons a ups ih =>
    intro n st hInv
    have hF := findOne_step a (pkMapOf st.meta (getEnt st.heap a)) hInv
    obtain ⟨hFInv, hFmeta, hFdb, hFlen, hFbelow, ⟨t1, hFtr, hFmem, hFev⟩, _⟩ := hF
    have hstep : (fetchExistingEntity st a).1 = (findOne st a (pkMapOf st.meta (getEnt st.heap a))).1 := by
      simp [fetchExistingEntity]
    have ihh := ih (fetchExistingEntity st a).1 (by rw [hstep]; exact hFInv)
    obtain ⟨hIInv, hImeta, hIdb, hIlen, hIbelow, ⟨t2, hItr, hIev, hImem⟩⟩ := ihh
    rw [List.foldl_cons]
    refine ⟨hIInv, ?_, ?_, ?_, ?_, ?_⟩
    · rw [hImeta, hstep, hFmeta]
    · rw [hIdb, hstep, hFdb]
    · calc st.heap.length ≤ (findOne st a (pkMapOf st.meta (getEnt st.heap a))).1.heap.length := hFlen
        _ = (fetchExistingEntity st a).1.heap.length := by rw [hstep]
        _ ≤ _ := hIlen
    · intro i hi
      rw [hIbelow i hi, hstep, hFbelow i hi]
    · refine ⟨t1 ++ t2, ?_, ?_, ?_⟩
      · rw [hItr, hstep, hFtr, List.append_assoc]
      · intro ev hev
        rcases List.mem_append.mp hev with hev | hev
        · exact hFev ev hev
        · exact hIev ev hev
      · intro j hj hjn
        rcases List.mem_cons.mp hj with rfl | hj
        · exact List.mem_append.mpr (Or.inl hFmem)
        · have hjn1 : j < (fetchExistingEntity st a).1.heap.length :=
            lt_of_lt_of_le hjn (by rw [hstep]; exact hFlen)
          have hstable : getEnt (fetchExistingEntity st a).1.heap j = getEnt st.heap j := by
            rw [hstep]
            exact findOne_heap_stable st a _ j hjn
          have hmeta1 : (fetchExistingEntity st a).1.meta = st.meta := by
            rw [hstep]
            exact hFmeta
          have := hImem j hj hjn1
          rw [hmeta1, hstable] at this
          exact List.mem_append.mpr (Or.inr this)

theorem foldl_persist_step (es : List Nat) :
    ∀ {n : Nat} (st : EMState), InvN n st →
    InvN n (es.foldl persistEntity st) ∧
    (es.foldl persistEntity st).meta = st.meta ∧
    (es.foldl persistEntity st).db = st.db ∧
    st.heap.length ≤ (es.foldl persistEntity st).heap.length ∧
    (∀ i, i < n → getEnt (es.foldl persistEntity st).heap i = getEnt st.heap i) ∧
    (∃ t, (es.foldl persistEntity st).trace = st.trace ++ t ∧ t.filterMap markOf = es ∧
      (∀ ev ∈ t, (∀ j, callArg ev = some j → j ∈ es ∨ n ≤ j) ∧ ev ≠ Ev.flushEv ∧ ev ≠ Ev.hookEv)) := by
  induction es with
  | nil =>
    intro n st hInv
    exact ⟨hInv, rfl, rfl, le_refl _, fun i _ => rfl, ⟨[], by simp, by simp, by simp⟩⟩
  | cons a es ih =>
    intro n st hInv
    have hP := persistEntity_step a hInv
    obtain ⟨hPInv, hPmeta, hPdb, hPlen, hPbelow, ⟨t1, hPtr, hPfm, hPev⟩⟩ := hP
    have ihh := ih (persistEntity st a) hPInv
    obtain ⟨hIInv, hImeta, hIdb, hIlen, hIbelow, ⟨t2, hItr, hIfm, hIev⟩⟩ := ihh
    rw [List.foldl_cons]
    refine ⟨hIInv, ?_, ?_, ?_, ?_, ?_⟩
    · rw [hImeta, hPmeta]
    · rw [hIdb, hPdb]
    · exact le_trans hPlen hIlen
    · intro i hi
      rw [hIbelow i hi, hPbelow i hi]
    · refine ⟨t1 ++ t2, ?_, ?_, ?_⟩
      · rw [hItr, hPtr, List.append_assoc]
      · rw [List.filterMap_append, hPfm, hIfm]
        rfl
      · intro ev hev
        rcases List.mem_append.mp hev with hev | hev
        · refine ⟨?_, (hPev ev hev).2.1, (hPev ev hev).2.2⟩
          intro j hj
          rcases (hPev ev hev).1 j hj with rfl | hn
          · exact Or.inl (by simp)
          · exact Or.inr hn
        · refine ⟨?_, (hIev ev hev).2.1, (hIev ev hev).2.2⟩
          intro j hj
          rcases (hIev ev hev).1 j hj with hj' | hn
          · exact Or.inl (by simp [hj'])
          · exact Or.inr hn

theorem orchestrate_spec (st : EMState) (es : List Nat) {n : Nat} (hInv : InvN n st) :
    ∃ tPre tMark,
      (orchestrate st es).trace = st.trace ++ tPre ++ tMark ++ [Ev.flushEv] ∧
      (∀ ev ∈ tPre, markOf ev = none ∧ callArg ev = none ∧ ev ≠ Ev.flushEv ∧ ev ≠ Ev.hookEv) ∧
      tMark.filterMap markOf = es ∧
      (∀ ev ∈ tMark, (∀ j, callArg ev = some j → j ∈ es ∨ n ≤ j) ∧ ev ≠ Ev.flushEv ∧ ev ≠ Ev.hookEv) ∧
      (∀ j ∈ es, forUpsertF (getEnt st.heap j) = true →
        Ev.findCallFor j (pkMapOf st.meta (getEnt st.heap j)) ∈ tPre) := by
  obtain ⟨hFInv, hFmeta, hFdb, hFlen, hFbelow, ⟨t1, hFtr, hFev, hFmem⟩⟩ :=
    foldl_fetch_step (es.filter (fun i => forUpsertF (getEnt st.heap i))) st hInv
  obtain ⟨hPInv, hPmeta, hPdb, hPlen, hPbelow, ⟨t2, hPtr, hPfm, hPev⟩⟩ :=
    foldl_persist_step es
      ((es.filter (fun i => forUpsertF (getEnt st.heap i))).foldl
        (fun s j => (fetchExistingEntity s j).1) st) hFInv
  refine ⟨t1, t2, ?_, hFev, hPfm, hPev, ?_⟩
  · show (orchestrate st es).trace = _
    unfold orchestrate
    simp only []
    rw [hPtr, hFtr]
  · intro j hj hups
    exact hFmem j (List.mem_filter.mpr ⟨hj, hups⟩) (forUpsert_lt_length hups)

theorem getField_cons (k0 : String) (v0 : Option FVal) (fs : Fields) (k : String) :
    getField ((k0, v0) :: fs) k = if k0 = k then some v0 else getField fs k := by
  unfold getField
  rw [List.find?_cons]
  by_cases h : k0 = k
  · subst h
    simp
  · have hb : (k0 == k) = false := by simp [h]
    rw [hb, if_neg h]

theorem getField_eq_none_of_not_mem {fs : Fields} {k : String}
    (h : k ∉ fs.map Prod.fst) : getField fs k = none := by
  unfold getField
  rw [List.find?_eq_none.mpr]
  intro p hp
  simp
  intro hc
  exact h (List.mem_map.mpr ⟨p, hp, hc⟩)

theorem getField_map_update_self (k : String) (v : Option FVal) (fs : Fields) :
    getField (fs.map (fun p => if p.1 == k then (k, v) else p)) k =
      if fs.any (fun p => p.1 == k) then some v else none := by
  induction fs with
  | nil => simp [getField]
  | cons p fs ih =>
    rcases p with ⟨pk, pv⟩
    by_cases hp : pk = k
    · simp only [List.map_cons]
      rw [if_pos (by simp [hp])]
      rw [getField_cons]
      simp [hp]
    · simp only [List.map_cons]
      rw [if_neg (by simp [hp])]
      rw [getField_cons]
      rw [if_neg hp, ih]
      have hb : (pk == k) = false := by simp [hp]
      simp only [List.any_cons, hb, Bool.false_or]

theorem getField_map_update_ne {k k' : String} (hne : k' ≠ k) (v : Option FVal) (fs : Fields) :
    getField (fs.map (fun p => if p.1 == k then (k, v) else p)) k' = getField fs k' := by
  induction fs with
  | nil => simp [getField]
  | cons p fs ih =>
    rcases p with ⟨pk, pv⟩
    by_cases hp : pk = k
    · simp only [List.map_cons]
      rw [if_pos (by simp [hp])]
      rw [getField_cons, getField_cons]
      rw [if_neg (fun hc => hne hc.symm), if_neg (by rw [hp]; exact fun hc => hne hc.symm)]
      exact ih
    · simp only [List.map_cons]
      rw [if_neg (by simp [hp])]
      rw [getField_cons, getField_cons]
      by_cases hpk : pk = k'
      · simp [hpk]
      · rw [if_neg hpk, if_neg hpk]
        exact ih

theorem getField_setField_self (fs : Fields) (k : String) (v : Option FVal) :
    getField (setField fs k v) k = some v := by
  unfold setField
  by_cases h : fs.any (fun p => p.1 == k)
  · rw [if_pos h, getField_map_update_self, if_pos h]
  · rw [if_neg h]
    unfold getField
    rw [List.find?_append]
    rw [List.find?_eq_none.mpr, Option.none_or]
    · simp only [List.find?_cons, beq_self_eq_true]
    · intro p hp
      rw [Bool.not_eq_true] at h
      simpa using List.any_eq_false.mp h p hp

theorem getField_setField_ne (fs : Fields) {k k' : String} (hne : k' ≠ k) (v : Option FVal) :
    getField (setField fs k v) k' = getField fs k' := by
  unfold setField
  by_cases h : fs.any (fun p => p.1 == k)
  · rw [if_pos h, getField_map_update_ne hne]
  · rw [if_neg h]
    unfold getField
    rw [List.find?_append]
    cases hf : List.find? (fun p => p.1 == k') fs with
    | some p => simp
    | none =>
      simp only [Option.none_or]
      rw [List.find?_cons]
      have hb : (k == k') = false := by simp [Ne.symm hne]
      rw [hb]
      rfl

theorem mergeFields_nil (t : Fields) : mergeFields [] t = t := rfl

theorem mergeFields_cons (k0 : String) (v0 : Option FVal) (src t : Fields) :
    mergeFields ((k0, v0) :: src) t =
      if v0 = none then mergeFields src t else mergeFields src (setField t k0 v0) := by
  unfold mergeFields
  rw [List.filter_cons]
  by_cases hv : v0 = none
  · rw [if_neg (by simp [hv]), if_pos hv]
  · rw [if_pos (by simp [hv]), if_neg hv, List.foldl_cons]

theorem getField_mergeFields_not_mem {src : Fields} {k : String}
    (h : k ∉ src.map Prod.fst) :
    ∀ t, getField (mergeFields src t) k = getField t k := by
  induction src with
  | nil => exact fun t => rfl
  | cons p src ih =>
    intro t
    rcases p with ⟨k0, v0⟩
    simp only [List.map_cons, List.mem_cons] at h
    push_neg at h
    rw [mergeFields_cons]
    by_cases hv : v0 = none
    · rw [if_pos hv]
      exact ih h.2 t
    · rw [if_neg hv, ih h.2, getField_setField_ne _ h.1]

theorem getField_mergeFields {src : Fields} (hnd : (src.map Prod.fst).Nodup) :
    ∀ t k, getField (mergeFields src t) k =
      match getField src k with
      | some (some v) => some (some v)
      | _ => getField t k := by
  induction src with
  | nil => exact fun t k => rfl
  | cons p src ih =>
    intro t k
    rcases p with ⟨k0, v0⟩
    simp only [List.map_cons, List.nodup_cons] at hnd
    rw [mergeFields_cons, getField_cons]
    by_cases hk : k0 = k
    · subst hk
      rw [if_pos rfl]
      by_cases hv : v0 = none
      · subst hv
        rw [if_pos rfl]
        exact getField_mergeFields_not_mem hnd.1 t
      · obtain ⟨w, rfl⟩ := Option.ne_none_iff_exists'.mp hv
        rw [if_neg hv]
        rw [getField_mergeFields_not_mem hnd.1, getField_setField_self]
    · rw [if_neg hk]
      by_cases hv : v0 = none
      · rw [if_pos hv]
        exact ih hnd.2 t k
      · rw [if_neg hv]
        rw [ih hnd.2]
        rcases hs : getField src k with _ | ⟨_ | w⟩
        · exact getField_setField_ne _ (fun hc => hk hc.symm) _
        · exact getField_setField_ne _ (fun hc => hk hc.symm) _
        · rfl

/-- C1: in any lifecycle unit whose caller logic succeeds and whose collection
succeeds, every entity instance in the collected set appears in it exactly
once — however many state slots or nested containers reach it — and exactly
one persist/remove call is issued on its behalf. -/
theorem dedup_single_persist_call : ∀ (inp : WrapInput) (resp : Nat) (l : List Nat) (i : Nat),
    inp.cb = Except.ok resp →
    entitiesSet inp.heap (Val.arr inp.slots) [] = Except.ok l →
    i ∈ l →
    l.count i = 1 ∧ ((wrapEvents inp).filterMap markOf).count i = 1 := by
  intro inp resp l i hcb hcoll hi
  have hnd : l.Nodup := ((collector_ok_facts inp.heap).1 _ _ _ hcoll).2.1 List.nodup_nil
  have hcount : l.count i = 1 := List.count_eq_one_of_mem hnd hi
  obtain ⟨tPre, tMark, htr, hPre, hMfm, hMev, _⟩ :=
    orchestrate_spec (initState inp) l (initState_inv0 inp)
  have hfm : ((orchestrate (initState inp) l).trace).filterMap markOf = l := by
    rw [htr]
    rw [List.filterMap_append, List.filterMap_append, List.filterMap_append]
    rw [List.filterMap_eq_nil_iff.mpr (fun ev hev => (hPre ev hev).1), hMfm]
    simp [markOf, initState]
  have main : ((wrapEvents inp).filterMap markOf) = l := by
    cases hhook : inp.hook with
    | none =>
      simp [wrapEvents, wrapTsFpDiMikroorm, hcb, hcoll, hhook, hfm]
    | some out =>
      cases out with
      | error e =>
        simp [wrapEvents, wrapTsFpDiMikroorm, hcb, hcoll, hhook, List.filterMap_append, hfm, markOf]
      | ok u =>
        simp [wrapEvents, wrapTsFpDiMikroorm, hcb, hcoll, hhook, List.filterMap_append, hfm, markOf]
  rw [main]
  exact ⟨hcount, hcount⟩

/-- Witness for C1: one entity instance reachable from two state slots is
collected once and gets exactly one persist call. -/
theorem dedup_single_persist_call_witness :
    inpC1.cb = Except.ok 0 ∧
    entitiesSet inpC1.heap (Val.arr inpC1.slots) [] = Except.ok [0] ∧ 0 ∈ ([0] : List Nat) ∧
    (([0] : List Nat).count 0 = 1 ∧ ((wrapEvents inpC1).filterMap markOf).count 0 = 1) :=
  ⟨rfl, rfl, by decide, dedup_single_persist_call inpC1 0 [0] 0 rfl rfl (by decide)⟩

/-- C2: if the caller logic throws, the wrapper rejects with exactly that
error and issues no storage call at all: nothing is marked for
insert/update/removal, flush is never called, and the post-persist hook is
never invoked. -/
theorem caller_failure_skips_persistence : ∀ (inp : WrapInput) (e : Nat), inp.cb = Except.error e →
    wrapResult inp = Except.error e ∧ wrapEvents inp = [] := by
  intro inp e h
  constructor <;> simp [wrapResult, wrapEvents, wrapTsFpDiMikroorm, h]

/-- Witness for C2 at a caller logic that throws error 5. -/
theorem caller_failure_skips_persistence_witness :
    inpC2.cb = Except.error 5 ∧
    (wrapResult inpC2 = Except.error 5 ∧ wrapEvents inpC2 = []) :=
  ⟨rfl, caller_failure_skips_persistence inpC2 5 rfl⟩

/-- C3: for a collected entity with only the upsert flag set, an
existing-record lookup by primary key is performed; if a record is found,
the defined fields of the entity are merged onto the found record and the
found record is persisted; if no record is found, the entity itself is
persisted as a new record. -/
theorem upsert_merge_found_or_insert : ∀ (st : EMState) (i : Nat),
    forUpsertF (getEnt st.heap i) = true →
    forDeleteF (getEnt st.heap i) = false →
    forUpdateF (getEnt st.heap i) = false →
    Ev.findCallFor i (pkMapOf st.meta (getEnt st.heap i)) ∈ (persistEntity st i).trace ∧
    (∀ u, (findOne st i (pkMapOf st.meta (getEnt st.heap i))).2 = some u →
      persistEntity st i =
        { (findOne st i (pkMapOf st.meta (getEnt st.heap i))).1 with
            heap := (findOne st i (pkMapOf st.meta (getEnt st.heap i))).1.heap.set u
              { getEnt (findOne st i (pkMapOf st.meta (getEnt st.heap i))).1.heap u with
                  fields := mergeFields (getEnt st.heap i).fields
                    (getEnt (findOne st i (pkMapOf st.meta (getEnt st.heap i))).1.heap u).fields },
            trace := (findOne st i (pkMapOf st.meta (getEnt st.heap i))).1.trace
              ++ [Ev.persistFor i u] }) ∧
    ((findOne st i (pkMapOf st.meta (getEnt st.heap i))).2 = none →
      persistEntity st i =
        { (findOne st i (pkMapOf st.meta (getEnt st.heap i))).1 with
            trace := (findOne st i (pkMapOf st.meta (getEnt st.heap i))).1.trace
              ++ [Ev.persistFor i i] }) := by
  intro st i hU hD hF
  have hmem := findOne_trace_mem st i (pkMapOf st.meta (getEnt st.heap i))
  rcases hfo : findOne st i (pkMapOf st.meta (getEnt st.heap i)) with ⟨st1, uopt⟩
  rw [hfo] at hmem
  dsimp only at hmem ⊢
  cases uopt with
  | some u =>
    have hpe : persistEntity st i =
        { st1 with
            heap := st1.heap.set u { getEnt st1.heap u with
              fields := mergeFields (getEnt st.heap i).fields (getEnt st1.heap u).fields },
            trace := st1.trace ++ [Ev.persistFor i u] } := by
      simp [persistEntity, hD, hF, hU, fetchExistingEntity, hfo]
    refine ⟨?_, ?_, ?_⟩
    · rw [hpe]
      exact List.mem_append.mpr (Or.inl hmem)
    · intro u' hu'
      simp at hu'
      subst hu'
      exact hpe
    · intro hnone
      simp at hnone
  | none =>
    have hpe : persistEntity st i = { st1 with trace := st1.trace ++ [Ev.persistFor i i] } := by
      simp [persistEntity, hD, hF, hU, fetchExistingEntity, hfo]
    refine ⟨?_, ?_, ?_⟩
    · rw [hpe]
      exact List.mem_append.mpr (Or.inl hmem)
    · intro u' hu'
      simp at hu'
    · intro _
      exact hpe

/-- Witness for C3: an upsert entity whose row exists in storage. -/
theorem upsert_merge_found_or_insert_witness :
    forUpsertF (getEnt stC3.heap 0) = true ∧
    forDeleteF (getEnt stC3.heap 0) = false ∧
    forUpdateF (getEnt stC3.heap 0) = false ∧
    (Ev.findCallFor 0 (pkMapOf stC3.meta (getEnt stC3.heap 0)) ∈ (persistEntity stC3 0).trace ∧
     (∀ u, (findOne stC3 0 (pkMapOf stC3.meta (getEnt stC3.heap 0))).2 = some u →
       persistEntity stC3 0 =
         { (findOne stC3 0 (pkMapOf stC3.meta (getEnt stC3.heap 0))).1 with
             heap := (findOne stC3 0 (pkMapOf stC3.meta (getEnt stC3.heap 0))).1.heap.set u
               { getEnt (findOne stC3 0 (pkMapOf stC3.meta (getEnt stC3.heap 0))).1.heap u with
                   fields := mergeFields (getEnt stC3.heap 0).fields
                     (getEnt (findOne stC3 0 (pkMapOf stC3.meta (getEnt stC3.heap 0))).1.heap u).fields },
             trace := (findOne stC3 0 (pkMapOf stC3.meta (getEnt stC3.heap 0))).1.trace
               ++ [Ev.persistFor 0 u] }) ∧
     ((findOne stC3 0 (pkMapOf stC3.meta (getEnt stC3.heap 0))).2 = none →
       persistEntity stC3 0 =
         { (findOne stC3 0 (pkMapOf stC3.meta (getEnt stC3.heap 0))).1 with
             trace := (findOne stC3 0 (pkMapOf stC3.meta (getEnt stC3.heap 0))).1.trace
               ++ [Ev.persistFor 0 0] })) :=
  ⟨rfl, rfl, rfl, upsert_merge_found_or_insert stC3 0 rfl rfl rfl⟩

/-- C4: a collected entity with the delete flag set is marked for removal
and nothing else happens — no lookup, no merge, no persist — regardless of
any other flag. -/
theorem delete_precedence : ∀ (st : EMState) (i : Nat),
    forDeleteF (getEnt st.heap i) = true →
    persistEntity st i = { st with trace := st.trace ++ [Ev.removeFor i] } := by
  intro st i hDel
  simp [persistEntity, hDel]

/-- Witness for C4: delete wins although upsert and update are also set. -/
theorem delete_precedence_witness :
    forDeleteF (getEnt stC4.heap 0) = true ∧
    forUpsertF (getEnt stC4.heap 0) = true ∧
    forUpdateF (getEnt stC4.heap 0) = true ∧
    persistEntity stC4 0 = { stC4 with trace := stC4.trace ++ [Ev.removeFor 0] } :=
  ⟨rfl, rfl, rfl, delete_precedence stC4 0 rfl⟩

/-- C5: in the field merge used by update-by-reference and upsert, every
field defined (not `undefined`) on the source overwrites the corresponding
target field, and every field absent or `undefined` on the source leaves
the target field unchanged. -/
theorem merge_defined_fields_only : ∀ (src target : Fields) (k : String),
    (src.map Prod.fst).Nodup →
    (∀ v, getField src k = some (some v) → getField (mergeFields src target) k = some (some v)) ∧
    ((getField src k = none ∨ getField src k = some none) →
      getField (mergeFields src target) k = getField target k) := by
  intro src target k hnd
  constructor
  · intro v hv
    rw [getField_mergeFields hnd, hv]
  · rintro (hv | hv) <;> rw [getField_mergeFields hnd, hv]

/-- Witness for C5 at concrete source and target field lists. -/
theorem merge_defined_fields_only_witness :
    (srcC5.map Prod.fst).Nodup ∧
    ((∀ v, getField srcC5 "a" = some (some v) →
        getField (mergeFields srcC5 targetC5) "a" = some (some v)) ∧
     ((getField srcC5 "a" = none ∨ getField srcC5 "a" = some none) →
        getField (mergeFields srcC5 targetC5) "a" = getField targetC5 "a")) :=
  ⟨by decide, merge_defined_fields_only srcC5 targetC5 "a" (by decide)⟩

/-- C6 counterexample: caller logic has loaded the skip-flagged entity 0
into the forked session's identity map (via `em()` during `cb`), and the
distinct collected entity 1 carries `$forUpsert` with the same primary
key.  The upsert lookup then returns the managed skip-flagged instance
itself, its fields are merged into, and the persist call issued for
entity 1 receives entity 0 as its argument — a `$noPersist` entity IS
passed to the storage engine, refuting the claim's "never passed to the
storage engine (no persist, remove, or lookup call receives it)". -/
theorem managed_skip_entity_persisted_counterexample :
    noPersistF (getEnt inpC6.heap 0) = true ∧
    entitiesSet inpC6.heap (Val.arr inpC6.slots) [] = Except.ok [1] ∧
    wrapTsFpDiMikroorm inpC6 =
      (Except.ok 0,
       [Ev.findCallFor 1 pkmC6, Ev.findCallFor 1 pkmC6, Ev.persistFor 1 0, Ev.flushEv]) ∧
    callArg (Ev.persistFor 1 0) = some 0 :=
  ⟨rfl, rfl, rfl, rfl⟩

/-- C6 (amended): an entity whose `$noPersist` flag is set is excluded from
the collected entity set, however many state slots or containers reach it,
and no persist or remove call of the unit is issued on that entity's
behalf.  (It may still reach the storage engine as the target of a persist
issued for a different collected entity, when the caller has loaded it
into the session's identity map under a shared primary key — the
counterexample above.) -/
theorem skip_persist_never_marked : ∀ (inp : WrapInput) (i : Nat),
    noPersistF (getEnt inp.heap i) = true →
    (∀ l, entitiesSet inp.heap (Val.arr inp.slots) [] = Except.ok l → i ∉ l) ∧
    (∀ ev ∈ wrapEvents inp, markOf ev ≠ some i) := by
  intro inp i hnp
  have hnotin : ∀ l, entitiesSet inp.heap (Val.arr inp.slots) [] = Except.ok l → i ∉ l := by
    intro l hcoll hi
    rcases ((collector_ok_facts inp.heap).1 _ _ _ hcoll).2.2 i hi with hin | ⟨_, hfalse⟩
    · simp at hin
    · rw [hnp] at hfalse
      simp at hfalse
  refine ⟨hnotin, ?_⟩
  intro ev hev
  rcases hcb : inp.cb with e | resp
  · rw [show wrapEvents inp = [] from by simp [wrapEvents, wrapTsFpDiMikroorm, hcb]] at hev
    simp at hev
  · rcases hcoll : entitiesSet inp.heap (Val.arr inp.slots) [] with e | l
    · rw [show wrapEvents inp = [] from by simp [wrapEvents, wrapTsFpDiMikroorm, hcb, hcoll]] at hev
      simp at hev
    · obtain ⟨tPre, tMark, htr, hPre, hMfm, hMev, _⟩ :=
        orchestrate_spec (initState inp) l (initState_inv0 inp)
      have hin : i ∉ l := hnotin l hcoll
      have horch : ∀ ev ∈ (orchestrate (initState inp) l).trace, markOf ev ≠ some i := by
        intro ev hevt
        rw [htr] at hevt
        rcases List.mem_append.mp hevt with hevt | hevt
        · rcases List.mem_append.mp hevt with hevt | hevt
          · rcases List.mem_append.mp hevt with hevt | hevt
            · simp [initState] at hevt
            · rw [(hPre ev hevt).1]
              simp
          · intro hc
            exact hin (hMfm ▸ List.mem_filterMap.mpr ⟨ev, hevt, hc⟩)
        · simp at hevt
          subst hevt
          simp [markOf]
      cases hhook : inp.hook with
      | none =>
        rw [show wrapEvents inp = (orchestrate (initState inp) l).trace from by
          simp [wrapEvents, wrapTsFpDiMikroorm, hcb, hcoll, hhook]] at hev
        exact horch ev hev
      | some out =>
        cases out with
        | error e =>
          rw [show wrapEvents inp = (orchestrate (initState inp) l).trace ++ [Ev.hookEv] from by
            simp [wrapEvents, wrapTsFpDiMikroorm, hcb, hcoll, hhook]] at hev
          rcases List.mem_append.mp hev with hev | hev
          · exact horch ev hev
          · simp at hev
            subst hev
            simp [markOf]
        | ok u =>
          rw [show wrapEvents inp = (orchestrate (initState inp) l).trace ++ [Ev.hookEv] from by
            simp [wrapEvents, wrapTsFpDiMikroorm, hcb, hcoll, hhook]] at hev
          rcases List.mem_append.mp hev with hev | hev
          · exact horch ev hev
          · simp at hev
            subst hev
            simp [markOf]

/-- Witness for the amended C6, at the counterexample scenario itself: even
with the skip-flagged entity managed in the identity map (and received by
the sibling's persist call), it is not collected and no mark is issued on
its behalf. -/
theorem skip_persist_never_marked_witness :
    noPersistF (getEnt inpC6.heap 0) = true ∧
    ((∀ l, entitiesSet inpC6.heap (Val.arr inpC6.slots) [] = Except.ok l → 0 ∉ l) ∧
     (∀ ev ∈ wrapEvents inpC6, markOf ev ≠ some 0)) :=
  ⟨rfl, skip_persist_never_marked inpC6 0 rfl⟩

/-- C7 counterexample: a failure wrapper carrying the non-null, non-`Error`
payload `7` is reachable from the slot union, yet collection does not
abort: it succeeds, the sibling entity is persisted and the session is
flushed — the claim as stated (abort on any non-null underlying error)
fails on this input. -/
theorem nonerror_left_skipped_counterexample :
    isLeft (Val.vleft (Val.scalar 7)) = true ∧
    entitiesSet inpC7.heap (Val.arr inpC7.slots) [] = Except.ok [0] ∧
    wrapTsFpDiMikroorm inpC7 = (Except.ok 0, [Ev.persistFor 0 0, Ev.flushEv]) :=
  ⟨rfl, rfl, rfl⟩

/-- C7 (amended): if a failure wrapper carrying an `Error` instance is
reachable from the state-slot union, the wrapper rejects with the first
such error in traversal order and issues no storage call, so no entity of
the unit is persisted. -/
theorem error_left_aborts_collection : ∀ (inp : WrapInput) (resp e : Nat),
    inp.cb = Except.ok resp →
    (leftErrors (Val.arr inp.slots)).head? = some e →
    wrapTsFpDiMikroorm inp = (Except.error e, []) := by
  intro inp resp e hcb hleft
  have herr := ((collector_error_iff inp.heap).1 (Val.arr inp.slots) [] e).mpr hleft
  simp [wrapTsFpDiMikroorm, hcb, herr]

/-- Witness for the amended C7: a Left carrying `Error` 3 aborts the unit. -/
theorem error_left_aborts_collection_witness :
    inpC7b.cb = Except.ok 0 ∧
    (leftErrors (Val.arr inpC7b.slots)).head? = some 3 ∧
    wrapTsFpDiMikroorm inpC7b = (Except.error 3, []) :=
  ⟨rfl, rfl, error_left_aborts_collection inpC7b 0 3 rfl rfl⟩

/-- C8 counterexample: for a single upsert entity with no stored record the
trace contains its lookup — and its storage read — twice, refuting the
claim's \"no repeated lookup per entity\". -/
theorem repeated_upsert_lookup_counterexample :
    forUpsertF (getEnt inpC8.heap 0) = true ∧
    wrapTsFpDiMikroorm inpC8 =
      (Except.ok 0,
       [Ev.findCallFor 0 [("id", some (FVal.num 1))], Ev.dbRead [("id", some (FVal.num 1))],
        Ev.findCallFor 0 [("id", some (FVal.num 1))], Ev.dbRead [("id", some (FVal.num 1))],
        Ev.persistFor 0 0, Ev.flushEv]) ∧
    (wrapEvents inpC8).count (Ev.findCallFor 0 [("id", some (FVal.num 1))]) = 2 ∧
    (wrapEvents inpC8).count (Ev.dbRead [("id", some (FVal.num 1))]) = 2 :=
  ⟨rfl, rfl, rfl, rfl⟩

/-- C8 (amended): the orchestrator resolves an existing-record lookup for
every collected entity with the upsert flag before any entity is marked
(the prefetch phase issues no mark call), then marks every entity in the
full collected set, and flushes exactly once, after all entities have
been marked.  No caching or absence of repeated lookups is asserted of
this layer: the prefetch results are discarded and the per-entity lookup
is repeated during marking (the counterexample above shows both the
lookup call and, for a record that does not exist, the storage read
issued twice). -/
theorem orchestrator_prefetch_mark_flush_once : ∀ (inp : WrapInput) (l : List Nat),
    ∃ tPre tMark,
      (orchestrate (initState inp) l).trace = tPre ++ tMark ++ [Ev.flushEv] ∧
      (∀ ev ∈ tPre, markOf ev = none) ∧
      (∀ j ∈ l, forUpsertF (getEnt inp.heap j) = true →
        Ev.findCallFor j (pkMapOf inp.meta (getEnt inp.heap j)) ∈ tPre) ∧
      tMark.filterMap markOf = l ∧
      (orchestrate (initState inp) l).trace.count Ev.flushEv = 1 := by
  intro inp l
  obtain ⟨tPre, tMark, htr, hPre, hMfm, hMev, hups⟩ :=
    orchestrate_spec (initState inp) l (initState_inv0 inp)
  refine ⟨tPre, tMark, ?_, fun ev hev => (hPre ev hev).1, ?_, hMfm, ?_⟩
  · rw [htr]
    simp [initState]
  · intro j hj hupsF
    exact hups j hj hupsF
  · have h1 : tPre.count Ev.flushEv = 0 :=
      List.count_eq_zero.mpr (fun hm => (hPre _ hm).2.2.1 rfl)
    have h2 : tMark.count Ev.flushEv = 0 :=
      List.count_eq_zero.mpr (fun hm => (hMev _ hm).2.1 rfl)
    rw [htr]
    simp [initState, List.count_append, h1, h2]

/-- C9: when caller logic succeeds and a post-persist hook is registered,
the hook runs exactly once, strictly after the flush; a hook failure
propagates as the wrapper's outcome while the flush (and every storage
call before it) remains in the trace, and a successful hook leaves the
caller logic's value as the outcome. -/
theorem hook_invoked_once_after_flush : ∀ (inp : WrapInput) (resp : Nat) (l : List Nat) (out : Except Nat Unit),
    inp.cb = Except.ok resp →
    entitiesSet inp.heap (Val.arr inp.slots) [] = Except.ok l →
    inp.hook = some out →
    ∃ T, wrapEvents inp = T ++ [Ev.flushEv, Ev.hookEv] ∧ Ev.hookEv ∉ T ∧ Ev.flushEv ∉ T ∧
      (wrapEvents inp).count Ev.hookEv = 1 ∧
      (∀ e, out = Except.error e → wrapResult inp = Except.error e) ∧
      (∀ u, out = Except.ok u → wrapResult inp = Except.ok resp) := by
  intro inp resp l out hcb hcoll hhook
  obtain ⟨tPre, tMark, htr, hPre, hMfm, hMev, _⟩ :=
    orchestrate_spec (initState inp) l (initState_inv0 inp)
  have hevs : wrapEvents inp = (orchestrate (initState inp) l).trace ++ [Ev.hookEv] := by
    cases out with
    | error e => simp [wrapEvents, wrapTsFpDiMikroorm, hcb, hcoll, hhook]
    | ok u => simp [wrapEvents, wrapTsFpDiMikroorm, hcb, hcoll, hhook]
  refine ⟨tPre ++ tMark, ?_, ?_, ?_, ?_, ?_, ?_⟩
  · rw [hevs, htr]
    simp [initState]
  · intro hmem
    rcases List.mem_append.mp hmem with hm | hm
    · exact (hPre _ hm).2.2.2 rfl
    · exact (hMev _ hm).2.2 rfl
  · intro hmem
    rcases List.mem_append.mp hmem with hm | hm
    · exact (hPre _ hm).2.2.1 rfl
    · exact (hMev _ hm).2.1 rfl
  · have h0 : (orchestrate (initState inp) l).trace.count Ev.hookEv = 0 := by
      rw [List.count_eq_zero]
      intro hmem
      rw [htr] at hmem
      rcases List.mem_append.mp hmem with hm | hm
      · rcases List.mem_append.mp hm with hm | hm
        · rcases List.mem_append.mp hm with hm | hm
          · simp [initState] at hm
          · exact (hPre _ hm).2.2.2 rfl
        · exact (hMev _ hm).2.2 rfl
      · simp at hm
    rw [hevs, List.count_append, h0]
    simp
  · intro e he
    subst he
    simp [wrapResult, wrapTsFpDiMikroorm, hcb, hcoll, hhook]
  · intro u hu
    subst hu
    simp [wrapResult, wrapTsFpDiMikroorm, hcb, hcoll, hhook]

/-- Witness for C9: a registered hook that throws error 9. -/
theorem hook_invoked_once_after_flush_witness :
    inpC9.cb = Except.ok 7 ∧
    entitiesSet inpC9.heap (Val.arr inpC9.slots) [] = Except.ok [0] ∧
    inpC9.hook = some (Except.error 9) ∧
    (∃ T, wrapEvents inpC9 = T ++ [Ev.flushEv, Ev.hookEv] ∧ Ev.hookEv ∉ T ∧ Ev.flushEv ∉ T ∧
      (wrapEvents inpC9).count Ev.hookEv = 1 ∧
      (∀ e, (Except.error 9 : Except Nat Unit) = Except.error e → wrapResult inpC9 = Except.error e) ∧
      (∀ u, (Except.error 9 : Except Nat Unit) = Except.ok u → wrapResult inpC9 = Except.ok 7)) :=
  ⟨rfl, rfl, rfl, hook_invoked_once_after_flush inpC9 7 [0] (Except.error 9) rfl rfl rfl⟩

/-- C10: a plain object that is not a registered entity, array, Map, Set or
Some/Right/Left wrapper contributes nothing to collection: the collector
returns its accumulator unchanged, and a unit whose only state value is
such an object issues no persist or remove call (only the flush). -/
theorem plain_object_contributes_nothing : ∀ (h : Heap) (fs : List Val) (acc : List Nat)
    (meta : List String) (db : List Fields) (heap : Heap) (im : List (PkMap × Nat)),
    entitiesSet h (Val.obj fs) acc = Except.ok acc ∧
    wrapTsFpDiMikroorm
      { meta := meta, db := db, heap := heap, imap := im, cb := Except.ok 0,
        slots := [Val.obj fs], hook := none } = (Except.ok 0, [Ev.flushEv]) := by
  intro h fs acc meta db heap im
  exact ⟨rfl, rfl⟩

end TFDM
